import Mathlib

/-!
Verification development for the antenna-match-optimizer core
(`src/antenna_match_optimizer/optimizer.py`).

Modelling conventions (shallow embedding):
* Python floats are modelled as rationals (`ℚ`); every IEEE double is a
  rational, and none of the verified control flow depends on rounding.
  `np.NaN`, used by the code as the "not applicable" sentinel inside
  `ArchParams` tuples, is modelled as `Option ℚ` with `none` for NaN.
  Python compares tuples containing the shared `np.NaN` object by identity,
  so two sentinel slots compare equal, exactly as `none = none` does here.
* The scikit-rf network algebra (element construction, cascading `**`,
  frequency interpolation, band slicing by a selector string) is an external
  collaborator; it is abstracted into the `RF` structure of opaque functions.
  A `Network` keeps the observable fields the optimizer reads: display name,
  stored parameters (`params` dict entry `x` in the code), port count,
  frequency axis, and the per-point reflection magnitude `s_mag`.
* The display name built by `matching_network` is a formatted string that is
  a pure function of the topology and of the parameter slots that actually
  appear in the label; it is modelled by the injective `NetName.label`
  constructor applied to exactly those slots.
* `scipy.optimize.minimize` and the floating `** 0.5` are external: `optimize`
  is parameterised over an arbitrary `Solver` and square-root function
  `fsqrt`, mirroring that the code uses the solver result as-is.
* `np.argsort` (used by `closest_values`) and Python's `sorted` (used by
  `evaluate_components`) are modelled by the stable `List.insertionSort`;
  Python's `sorted` is stable, and `np.argsort` agrees with a stable sort on
  all tie-free inputs such as the ones appearing in the test-suite examples.
* The component catalogs live in `antenna_match_optimizer/passives.py`, which
  is not part of the sources. Modelled from the spec: the catalogs are
  "ordered collections of (nominal value, absolute tolerance) pairs for
  inductors and capacitors"; their concrete values are unspecified, so every
  definition takes the two catalogs as explicit parameters, exactly where the
  Python code reads `passives.INDUCTORS` / `passives.CAPACITORS`.
-/

namespace AntennaMatch

/-- A Python float slot of an `ArchParams` pair: `none` models the `np.NaN`
"not applicable" sentinel, `some q` models an ordinary numeric value. -/
abbrev Val := Option ℚ

/-- Wraps a numeric parameter pair (e.g. a solver result) as `ArchParams`. -/
def toVals (x : ℚ × ℚ) : Val × Val := (some x.1, some x.2)

/-- The closed topology enumeration `Arch`, in source declaration order. -/
inductive Arch where
  | Lshunt
  | Cshunt
  | Lseries
  | Cseries
  | LshuntCseries
  | CshuntLseries
  | LseriesCshunt
  | CseriesLshunt
deriving DecidableEq, Repr

/-- Iteration order of `for a in Arch`, i.e. declaration order. -/
def archList : List Arch :=
  [.Lshunt, .Cshunt, .Lseries, .Cseries,
   .LshuntCseries, .CshuntLseries, .LseriesCshunt, .CseriesLshunt]

/-- Display names: a device network's own name, or the label string that
`matching_network` formats from the topology and the component values that
appear in it. -/
inductive NetName where
  | device (id : ℕ)
  | label (arch : Arch) (lval cval : Val)
deriving DecidableEq, Repr

/-- The label `matching_network` assigns: single-element topologies format
only their own element's value into the name, two-element topologies both. -/
def mkLabel (arch : Arch) (x : Val × Val) : NetName :=
  match arch with
  | .Lshunt => .label arch x.1 none
  | .Lseries => .label arch x.1 none
  | .Cshunt => .label arch none x.2
  | .Cseries => .label arch none x.2
  | _ => .label arch x.1 x.2

/-- A one-port frequency-domain response, keeping the fields the optimizer
observes: name, stored `params` entry, port count, frequency axis and the
per-point reflection magnitude. -/
structure Network where
  name : NetName
  pvals : Val × Val
  ports : ℕ
  freq : List ℚ
  smag : List ℚ
deriving DecidableEq, Repr

/-- The external scikit-rf collaborator: `resp` is the reflection magnitude of
the cascade (matching elements for `arch`/`x`) `**` target network, `sAt`
interpolates a network onto a new frequency axis (the `ntwk[freq_subset]`
operation), and `bandSlice` resolves an opaque band selector to the sub-axis
`ntwk.frequency[selector]`. -/
structure RF where
  resp : Arch → Val × Val → Network → List ℚ
  sAt : Network → List ℚ → List ℚ
  bandSlice : Network → ℕ → List ℚ

/-- Embedding of `matching_network`: cascades the matching elements with the
target network (response abstracted into `rf.resp`), keeps the target's
frequency axis and port count, stores `x` in `params` and sets the label. -/
def matching_network (rf : RF) (arch : Arch) (x : Val × Val) (ntwk : Network) : Network :=
  ⟨mkLabel arch x, x, ntwk.ports, ntwk.freq, rf.resp arch x ntwk⟩

/-- Sum of squares of a magnitude list, `np.sum(v ** 2.0)`. -/
def sumSq (l : List ℚ) : ℚ := (l.map (fun q => q * q)).sum

/-- Embedding of `OptimizerArgs` (the spec's OptimizationContext): the device
network, the derived band-limited working copy, and the band selector. -/
structure OptimizerArgs where
  ntwk : Network
  bandlimited_ntwk : Network
  frequency : Option ℕ
deriving Repr

/-- Embedding of `matching_objective`: band-integrated squared reflection
magnitude of the matched network over the band-limited axis. -/
def matching_objective (rf : RF) (x : ℚ × ℚ) (arch : Arch) (args : OptimizerArgs) : ℚ :=
  sumSq (matching_network rf arch (toVals x) args.bandlimited_ntwk).smag

/-- The only error `OptimizerArgs.__init__` raises itself: the `ValueError`
for a network that is not one-port. -/
inductive OptError where
  | invalidPortCount
deriving DecidableEq, Repr

/-- Evenly spaced axis of exactly `n` points from `start` to `stop`, the
`rf.Frequency(start, stop, npoints)` resampling grid. -/
def linspace (start stop : ℚ) (n : ℕ) : List ℚ :=
  (List.range n).map (fun (i : ℕ) =>
    if n ≤ 1 then start else start + (stop - start) * (i : ℚ) / ((n : ℚ) - 1))

/-- Restriction of a network onto a new frequency axis, `ntwk[freq_subset]`:
name, params and ports survive, the response is re-interpolated. -/
def restrict (rf : RF) (n : Network) (f : List ℚ) : Network :=
  ⟨n.name, n.pvals, n.ports, f, rf.sAt n f⟩

/-- Embedding of `OptimizerArgs.__init__`: reject non-one-port networks, then
derive the band-limited working copy. With no band selector the working copy
is the device network itself; with a selector the band slice is resampled to
`max_points` points only when it has more points than that cap. -/
def mkOptimizerArgs (rf : RF) (ntwk : Network) (frequency : Option ℕ)
    (max_points : Option ℕ) : Except OptError OptimizerArgs :=
  if ntwk.ports ≠ 1 then .error .invalidPortCount
  else
    match frequency with
    | none => .ok ⟨ntwk, ntwk, none⟩
    | some fsel =>
      let sub := rf.bandSlice ntwk fsel
      let sub2 :=
        match max_points with
        | some mp => if mp < sub.length then linspace (sub.headD 0) (sub.getLastD 0) mp else sub
        | none => sub
      .ok ⟨ntwk, restrict rf ntwk sub2, some fsel⟩

/-- Embedding of `OptimizeResult` (the spec's ContinuousResult); `x` is the
raw solver output, which is always a numeric pair. -/
structure OptimizeResult where
  arch : Arch
  x : ℚ × ℚ
  ntwk : Network
deriving DecidableEq, Repr

/-- Embedding of `OptimizeResultToleranced` (the spec's DiscreteResult): the
snapped nominal parameter pair (possibly holding the sentinel) and the
`NetworkSet` of tolerance-corner responses, kept as an ordered list. -/
structure OptimizeResultToleranced where
  arch : Arch
  x : Val × Val
  ntwk : List Network
deriving DecidableEq, Repr

/-- Largest nominal value of a catalog column, `np.max(components[:, 0])`
(totalised to 0 on the empty catalog, which makes numpy raise). -/
def colMax (components : List (ℚ × ℚ)) : ℚ :=
  match components with
  | [] => 0
  | c :: rest => rest.foldl (fun m d => max m d.1) c.1

/-- Smallest nominal value of a catalog column, `np.min(components[:, 0])`
(totalised to 0 on the empty catalog). -/
def colMin (components : List (ℚ × ℚ)) : ℚ :=
  match components with
  | [] => 0
  | c :: rest => rest.foldl (fun m d => min m d.1) c.1

/-- The external bounded minimiser (`scipy.optimize.minimize` with SLSQP):
takes the objective, the start point and the per-component bounds and returns
the best parameter vector found, used as-is. -/
abbrev Solver := ((ℚ × ℚ) → ℚ) → (ℚ × ℚ) → ((ℚ × ℚ) × (ℚ × ℚ)) → ℚ × ℚ

/-- Embedding of `optimize`: one bounded minimisation per topology, in
`archList` order, each started at the geometric mean of the catalog extremes
(`fsqrt` abstracts the floating `** 0.5`) with bounds `[catalog min, catalog
max]` per element type; each result pairs the solver output with the matched
band-limited network. -/
def optimize (rf : RF) (solver : Solver) (fsqrt : ℚ → ℚ)
    (inductors capacitors : List (ℚ × ℚ)) (args : OptimizerArgs) : List OptimizeResult :=
  let x0 : ℚ × ℚ :=
    (fsqrt (colMax inductors * colMin inductors), fsqrt (colMax capacitors * colMin capacitors))
  let bounds := ((colMin inductors, colMax inductors), (colMin capacitors, colMax capacitors))
  archList.map (fun arch =>
    let rx := solver (fun x => matching_objective rf x arch args) x0 bounds
    ⟨arch, rx, matching_network rf arch (toVals rx) args.bandlimited_ntwk⟩)

/-- Embedding of `np.isclose` with its default tolerances
`atol = 1e-8`, `rtol = 1e-5`. -/
def isclose (a b : ℚ) : Bool := |a - b| ≤ 1 / 100000000 + 1 / 100000 * |b|

/-- Embedding of `np.sign` on finite values. -/
def npsign (q : ℚ) : ℤ := if 0 < q then 1 else if q < 0 then -1 else 0

/-- Elements of `l` up to and including the first one satisfying `p`; the
whole list if none does. This is the `for ... append ... break` loop shape of
`closest_values`. -/
def takeUntilIncl {α : Type} (p : α → Bool) : List α → List α
  | [] => []
  | a :: rest => if p a then [a] else a :: takeUntilIncl p rest

/-- Catalog rows paired with their relative deviation
`components[:, 0] / value - 1.0` from the target. -/
def relList (value : ℚ) (components : List (ℚ × ℚ)) : List ((ℚ × ℚ) × ℚ) :=
  components.map (fun c => (c, c.1 / value - 1))

/-- Comparison by absolute relative deviation, the `np.argsort(np.abs(rel))`
key of `closest_values`. -/
def byAbsRel : ((ℚ × ℚ) × ℚ) → ((ℚ × ℚ) × ℚ) → Prop := fun a b => |a.2| ≤ |b.2|

instance : DecidableRel byAbsRel := fun a b => inferInstanceAs (Decidable (|a.2| ≤ |b.2|))

instance : IsTotal (((ℚ × ℚ) × ℚ)) byAbsRel := ⟨fun _ _ => le_total _ _⟩

instance : IsTrans (((ℚ × ℚ) × ℚ)) byAbsRel := ⟨fun _ _ _ hab hbc => le_trans hab hbc⟩

/-- The scan phase of `closest_values`, over the rows sorted by absolute
relative deviation: keep the closest row; when its deviation exceeds 0.1%,
also keep further rows up to and including the first whose deviation has the
opposite sign (the `for ... break` loop of the source). -/
def closest_scan : List ((ℚ × ℚ) × ℚ) → List (ℚ × ℚ)
  | [] => []
  | b0 :: rest =>
    if 1 / 1000 < |b0.2| then
      b0.1 :: (takeUntilIncl (fun c => decide (npsign c.2 ≠ npsign b0.2)) rest).map Prod.fst
    else [b0.1]

/-- Embedding of `closest_values`: boundary sentinel for targets numerically
indistinguishable from `0.001` or from twice the catalog maximum; otherwise
the closest row by absolute relative deviation, and — when that row is not
within 0.1% — further rows in increasing absolute deviation up to and
including the first row whose deviation has the opposite sign. -/
def closest_values (value : ℚ) (components : List (ℚ × ℚ)) : List (ℚ × ℚ) :=
  if isclose value (1 / 1000) || isclose value (colMax components * 2) then [(value, 0)]
  else closest_scan ((relList value components).insertionSort byAbsRel)

/-- Embedding of `expand_tolerance`: nominal first, then the lower and upper
tolerance corners; a zero-tolerance row stays a single exact value. -/
def expand_tolerance (vt : ℚ × ℚ) : List ℚ :=
  if 0 < vt.2 then [vt.1, vt.1 - vt.2, vt.1 + vt.2] else [vt.1]

/-- A discrete candidate tag: topology and snapped nominal parameter pair. -/
abbrev Tag := Arch × (Val × Val)

/-- Embedding of `itertools.product` over two lists: the first component
varies slower than the second. -/
def listProd {α β : Type} (as : List α) (bs : List β) : List (α × β) :=
  as.flatMap (fun a => bs.map (fun b => (a, b)))

/-- Embedding of `component_combinations`: both axes are searched with
`closest_values` up front; single-element topologies then enumerate only
their own axis, keeping the sentinel in the other slot of both tag and
values, while two-element topologies emit the full candidate-row cross
product, each pair expanded by the cross product of its tolerance corners. -/
def component_combinations (arch : Arch) (x : ℚ × ℚ)
    (inductors capacitors : List (ℚ × ℚ)) : List (Tag × (Val × Val)) :=
  let l_comps := closest_values x.1 inductors
  let c_comps := closest_values x.2 capacitors
  match arch with
  | .Lseries =>
    l_comps.flatMap (fun l_comp =>
      (expand_tolerance l_comp).map (fun l_val =>
        ((arch, (some l_comp.1, none)), (some l_val, none))))
  | .Lshunt =>
    l_comps.flatMap (fun l_comp =>
      (expand_tolerance l_comp).map (fun l_val =>
        ((arch, (some l_comp.1, none)), (some l_val, none))))
  | .Cseries =>
    c_comps.flatMap (fun c_comp =>
      (expand_tolerance c_comp).map (fun c_val =>
        ((arch, (none, some c_comp.1)), (none, some c_val))))
  | .Cshunt =>
    c_comps.flatMap (fun c_comp =>
      (expand_tolerance c_comp).map (fun c_val =>
        ((arch, (none, some c_comp.1)), (none, some c_val))))
  | _ =>
    (listProd l_comps c_comps).flatMap (fun lc =>
      (listProd (expand_tolerance lc.1) (expand_tolerance lc.2)).map (fun v =>
        ((arch, (some lc.1.1, some lc.2.1)), (some v.1, some v.2))))

/-- Modelled from the spec: the discrete candidate sequence a two-element
topology must produce, in the spec's words — every inductor candidate row ×
every capacitor candidate row × every inductor tolerance corner × every
capacitor tolerance corner, inductor rows varying slowest, then capacitor
rows, then inductor corners, then capacitor corners. -/
def spec_cross_product (arch : Arch) (x : ℚ × ℚ)
    (inductors capacitors : List (ℚ × ℚ)) : List (Tag × (Val × Val)) :=
  (closest_values x.1 inductors).flatMap (fun l_comp =>
    (closest_values x.2 capacitors).flatMap (fun c_comp =>
      (expand_tolerance l_comp).flatMap (fun l_val =>
        (expand_tolerance c_comp).map (fun c_val =>
          ((arch, (some l_comp.1, some c_comp.1)), (some l_val, some c_val))))))

/-- Embedding of `itertools.groupby` (no preceding sort): groups of
consecutive equal keys, in first-appearance order of each run. -/
def groupRuns {κ β : Type} [DecidableEq κ] : List (κ × β) → List (κ × List β)
  | [] => []
  | (k, b) :: rest =>
    match groupRuns rest with
    | [] => [(k, [b])]
    | (k2, bs) :: gs => if k = k2 then (k, b :: bs) :: gs else (k, [b]) :: (k2, bs) :: gs

/-- Pointwise maximum of the member magnitudes, `NetworkSet.max_s_mag`. -/
def max_s_mag : List Network → List ℚ
  | [] => []
  | n :: rest => rest.foldl (fun acc m => List.zipWith max acc m.smag) n.smag

/-- The ranking key of `evaluate_components`:
`np.sum(r.ntwk.max_s_mag.s_mag ** 2)`. -/
def worst_case_key (ns : List Network) : ℚ := sumSq (max_s_mag ns)

/-- Modelled from the spec: the worst-case score in the spec's words — the
maximum squared reflection magnitude across all of a group's tolerance-corner
responses and across all frequency points (not the band-integrated sum). -/
def spec_worst_case_max (ns : List Network) : ℚ :=
  ((ns.map (fun n => n.smag.map (fun q => q * q))).flatten).foldl max 0

/-- The tagged consecutive groups `evaluate_components` builds before
sorting: all candidates of all minima, matched against the band-limited
network, grouped by `itertools.groupby` on the tag. -/
def tagged_groups (rf : RF) (args : OptimizerArgs) (minima : List OptimizeResult)
    (inductors capacitors : List (ℚ × ℚ)) : List (Tag × List Network) :=
  groupRuns ((minima.flatMap (fun minimum =>
    component_combinations minimum.arch minimum.x inductors capacitors)).map (fun tv =>
      (tv.1, matching_network rf tv.1.1 tv.2 args.bandlimited_ntwk)))

/-- Comparison of tagged groups by the ranking key, the `key=` of the
`sorted` call in `evaluate_components`. -/
def keyLe : (Tag × List Network) → (Tag × List Network) → Prop :=
  fun a b => worst_case_key a.2 ≤ worst_case_key b.2

instance : DecidableRel keyLe :=
  fun a b => inferInstanceAs (Decidable (worst_case_key a.2 ≤ worst_case_key b.2))

instance : IsTotal (Tag × List Network) keyLe := ⟨fun _ _ => le_total _ _⟩

instance : IsTrans (Tag × List Network) keyLe := ⟨fun _ _ _ hab hbc => le_trans hab hbc⟩

/-- Embedding of `evaluate_components`: the tagged groups, stably sorted
ascending by `worst_case_key` (Python's stable `sorted`), each repackaged as
an `OptimizeResultToleranced`. -/
def evaluate_components (rf : RF) (args : OptimizerArgs) (minima : List OptimizeResult)
    (inductors capacitors : List (ℚ × ℚ)) : List OptimizeResultToleranced :=
  ((tagged_groups rf args minima inductors capacitors).insertionSort keyLe).map
    (fun g => ⟨g.1.1, g.1.2, g.2⟩)

/-- The `OptimizeResult | OptimizeResultToleranced` union that
`expand_result` dispatches on via `isinstance`. -/
inductive MatchResult where
  | single (r : OptimizeResult)
  | toleranced (r : OptimizeResultToleranced)
deriving Repr

/-- The network responses carried by a result. -/
def resultNets : MatchResult → List Network
  | .single r => [r.ntwk]
  | .toleranced r => r.ntwk

/-- Embedding of `expand_result`: rebuild the matching network(s) against the
full device network `args.ntwk`; a toleranced result rebuilds one network per
member from that member's stored `params`, in order. -/
def expand_result (rf : RF) (args : OptimizerArgs) : MatchResult → MatchResult
  | .toleranced r =>
    .toleranced ⟨r.arch, r.x, r.ntwk.map (fun n => matching_network rf r.arch n.pvals args.ntwk)⟩
  | .single r =>
    .single ⟨r.arch, r.x, matching_network rf r.arch (toVals r.x) args.ntwk⟩

/-- Modelled from the spec: one bounded minimisation for a given topology,
started at the geometric mean of the catalog extremes (independently per
element type) with bounds equal to the catalog minimum and maximum per
element type, paired with the matched band-limited network. -/
def spec_one_minimization (rf : RF) (solver : Solver) (fsqrt : ℚ → ℚ)
    (inductors capacitors : List (ℚ × ℚ)) (args : OptimizerArgs) (arch : Arch) : OptimizeResult :=
  let x0 : ℚ × ℚ :=
    (fsqrt (colMax inductors * colMin inductors), fsqrt (colMax capacitors * colMin capacitors))
  let bounds := ((colMin inductors, colMax inductors), (colMin capacitors, colMax capacitors))
  let rx := solver (fun x => matching_objective rf x arch args) x0 bounds
  ⟨arch, rx, matching_network rf arch (toVals rx) args.bandlimited_ntwk⟩

/-! ### Concrete fixtures used by witnesses and counterexamples -/

/-- A collaborator instance whose cascade response is empty (all groups then
score 0, exercising tie behaviour). -/
def rfZero : RF := ⟨fun _ _ _ => [], fun n _ => n.smag, fun n _ => n.freq⟩

/-- A collaborator instance distinguishing two single-element topologies:
the `Lshunt` cascade has a narrow spike, the `Cshunt` cascade is flat. -/
def rfSpike : RF :=
  ⟨fun arch _ _ =>
    match arch with
    | .Lshunt => [9/10, 0]
    | .Cshunt => [7/10, 7/10]
    | _ => [],
   fun n _ => n.smag, fun n _ => n.freq⟩

/-- A one-port device fixture with a two-point frequency axis. -/
def antFix : Network := ⟨.device 0, (none, none), 1, [1, 2], [1/2, 1/2]⟩

/-- A two-port fixture, rejected by context construction. -/
def twoPortFix : Network := ⟨.device 1, (none, none), 2, [1, 2], [1/2, 1/2]⟩

/-- A context built from `antFix` with no band selector. -/
def argsFix : OptimizerArgs := ⟨antFix, antFix, none⟩

/-- A two-row zero-tolerance inductor catalog bracketing 0.95. -/
def indPairFix : List (ℚ × ℚ) := [(9/10, 0), (11/10, 0)]

/-- A one-row zero-tolerance catalog. -/
def capOneFix : List (ℚ × ℚ) := [(1, 0)]

/-- A continuous minimum on `Lseries` snapping to both rows of `indPairFix`. -/
def minLs1 : OptimizeResult := ⟨.Lseries, (19/20, 1), antFix⟩

/-- A second, distinct continuous minimum on `Lseries` snapping to the same
two rows of `indPairFix`. -/
def minLs2 : OptimizeResult := ⟨.Lseries, (47/50, 1), antFix⟩

/-- A continuous minimum on `Lshunt`. -/
def minLshunt : OptimizeResult := ⟨.Lshunt, (1, 1), antFix⟩

/-- A continuous minimum on `Cshunt`. -/
def minCshunt : OptimizeResult := ⟨.Cshunt, (1, 1), antFix⟩

/-- A solver instance that returns its start point unchanged. -/
def solverStart : Solver := fun _ x0 _ => x0

/-- A square-root model instance (any function is admissible, since the
floating `** 0.5` is external). -/
def fsqrtId : ℚ → ℚ := fun q => q

/-- A catalog whose extremes multiply to a square, for the C3 fixture. -/
def indQuadFix : List (ℚ × ℚ) := [(1, 0), (4, 0)]

/-- A second square-product catalog for the C3 fixture. -/
def capQuadFix : List (ℚ × ℚ) := [(2, 0), (8, 0)]

/-- The first item emitted for the `Lseries` fixture minimum. -/
def tvFix : Tag × (Val × Val) := ((.Lseries, (some (9/10), none)), (some (9/10), none))

/-- The five-row catalog of the spec's `closest_values` worked example. -/
def comps5 : List (ℚ × ℚ) := [(2/5, 1/10), (9/10, 1/10), (4/5, 1/10), (3/2, 1/10), (8/5, 1/5)]

/-- The single tagged group produced by the `Lshunt` fixture minimum. -/
def groupL : Tag × List Network :=
  ((.Lshunt, (some 1, none)), [matching_network rfSpike .Lshunt (some 1, none) antFix])

/-- The single tagged group produced by the `Cshunt` fixture minimum. -/
def groupC : Tag × List Network :=
  ((.Cshunt, (none, some 1)), [matching_network rfSpike .Cshunt (none, some 1) antFix])

/-- A ContinuousResult fixture whose network was built by
`matching_network` on the band-limited copy, as `optimize` produces. -/
def contFix : OptimizeResult :=
  ⟨.Lshunt, (1, 2), matching_network rfZero .Lshunt (toVals (1, 2)) antFix⟩

/-- A two-corner DiscreteResult fixture built by `matching_network` on the
band-limited copy, as `evaluate_components` produces. -/
def tolFix : OptimizeResultToleranced :=
  ⟨.Lshunt, (some 1, none),
   [matching_network rfZero .Lshunt (some 1, none) antFix,
    matching_network rfZero .Lshunt (some (9/10), none) antFix]⟩

/-! ### Branch equations of the candidate generator -/

/-- The `Lshunt` branch of `component_combinations`. -/
theorem component_combinations_Lshunt (x : ℚ × ℚ) (ind cap : List (ℚ × ℚ)) :
    component_combinations .Lshunt x ind cap =
      (closest_values x.1 ind).flatMap (fun l_comp =>
        (expand_tolerance l_comp).map (fun l_val =>
          ((Arch.Lshunt, (some l_comp.1, none)), (some l_val, none)))) := rfl

/-- The `Lseries` branch of `component_combinations`. -/
theorem component_combinations_Lseries (x : ℚ × ℚ) (ind cap : List (ℚ × ℚ)) :
    component_combinations .Lseries x ind cap =
      (closest_values x.1 ind).flatMap (fun l_comp =>
        (expand_tolerance l_comp).map (fun l_val =>
          ((Arch.Lseries, (some l_comp.1, none)), (some l_val, none)))) := rfl

/-- The `Cshunt` branch of `component_combinations`. -/
theorem component_combinations_Cshunt (x : ℚ × ℚ) (ind cap : List (ℚ × ℚ)) :
    component_combinations .Cshunt x ind cap =
      (closest_values x.2 cap).flatMap (fun c_comp =>
        (expand_tolerance c_comp).map (fun c_val =>
          ((Arch.Cshunt, (none, some c_comp.1)), (none, some c_val)))) := rfl

/-- The `Cseries` branch of `component_combinations`. -/
theorem component_combinations_Cseries (x : ℚ × ℚ) (ind cap : List (ℚ × ℚ)) :
    component_combinations .Cseries x ind cap =
      (closest_values x.2 cap).flatMap (fun c_comp =>
        (expand_tolerance c_comp).map (fun c_val =>
          ((Arch.Cseries, (none, some c_comp.1)), (none, some c_val)))) := rfl

/-- The two-element branch of `component_combinations`, at `LshuntCseries`. -/
theorem component_combinations_LshuntCseries (x : ℚ × ℚ) (ind cap : List (ℚ × ℚ)) :
    component_combinations .LshuntCseries x ind cap =
      (listProd (closest_values x.1 ind) (closest_values x.2 cap)).flatMap (fun lc =>
        (listProd (expand_tolerance lc.1) (expand_tolerance lc.2)).map (fun v =>
          ((Arch.LshuntCseries, (some lc.1.1, some lc.2.1)), (some v.1, some v.2)))) := rfl

/-- The two-element branch of `component_combinations`, at `CshuntLseries`. -/
theorem component_combinations_CshuntLseries (x : ℚ × ℚ) (ind cap : List (ℚ × ℚ)) :
    component_combinations .CshuntLseries x ind cap =
      (listProd (closest_values x.1 ind) (closest_values x.2 cap)).flatMap (fun lc =>
        (listProd (expand_tolerance lc.1) (expand_tolerance lc.2)).map (fun v =>
          ((Arch.CshuntLseries, (some lc.1.1, some lc.2.1)), (some v.1, some v.2)))) := rfl

/-- The two-element branch of `component_combinations`, at `LseriesCshunt`. -/
theorem component_combinations_LseriesCshunt (x : ℚ × ℚ) (ind cap : List (ℚ × ℚ)) :
    component_combinations .LseriesCshunt x ind cap =
      (listProd (closest_values x.1 ind) (closest_values x.2 cap)).flatMap (fun lc =>
        (listProd (expand_tolerance lc.1) (expand_tolerance lc.2)).map (fun v =>
          ((Arch.LseriesCshunt, (some lc.1.1, some lc.2.1)), (some v.1, some v.2)))) := rfl

/-- The two-element branch of `component_combinations`, at `CseriesLshunt`. -/
theorem component_combinations_CseriesLshunt (x : ℚ × ℚ) (ind cap : List (ℚ × ℚ)) :
    component_combinations .CseriesLshunt x ind cap =
      (listProd (closest_values x.1 ind) (closest_values x.2 cap)).flatMap (fun lc =>
        (listProd (expand_tolerance lc.1) (expand_tolerance lc.2)).map (fun v =>
          ((Arch.CseriesLshunt, (some lc.1.1, some lc.2.1)), (some v.1, some v.2)))) := rfl

/-! ### Claim theorems -/

/-- C5. `optimize` returns exactly one ContinuousResult per topology, for all
8 topologies, in fixed topology-enumeration order; each result comes from one
bounded minimization of the band-integrated squared-reflection objective
started at the geometric mean of the catalog extremes (independently for
inductance and capacitance) with bounds equal to the catalog minimum and
maximum per element type. -/
theorem C5_optimize_one_per_arch (rf : RF) (solver : Solver) (fsqrt : ℚ → ℚ)
    (inductors capacitors : List (ℚ × ℚ)) (args : OptimizerArgs) :
    optimize rf solver fsqrt inductors capacitors args =
      [spec_one_minimization rf solver fsqrt inductors capacitors args .Lshunt,
       spec_one_minimization rf solver fsqrt inductors capacitors args .Cshunt,
       spec_one_minimization rf solver fsqrt inductors capacitors args .Lseries,
       spec_one_minimization rf solver fsqrt inductors capacitors args .Cseries,
       spec_one_minimization rf solver fsqrt inductors capacitors args .LshuntCseries,
       spec_one_minimization rf solver fsqrt inductors capacitors args .CshuntLseries,
       spec_one_minimization rf solver fsqrt inductors capacitors args .LseriesCshunt,
       spec_one_minimization rf solver fsqrt inductors capacitors args .CseriesLshunt] := rfl

/-- C6 counterexample. The claim's "exactly when" fails in the backward
direction: a target that ties a zero-tolerance catalog row exactly also
yields the single entry `(target, 0.0)` although it is far from both
optimization bounds. -/
theorem C6_exact_row_cex :
    closest_values 5 [(5, 0)] = [(5, 0)] ∧
    isclose 5 (1/1000) = false ∧
    isclose 5 (colMax [((5:ℚ), (0:ℚ))] * 2) = false := by
  with_unfolding_all decide

/-- C6 as amended. Whenever the target is numerically indistinguishable
(within `np.isclose` tolerance) from the lower bound `1e-3` or from twice the
catalog maximum, `closest_values` returns the single synthetic entry
`(target, 0.0)`, whose tolerance expansion is the bare value — no discrete
snapping and no tolerance variation. The converse does not hold in general. -/
theorem C6_boundary_sentinel (value : ℚ) (components : List (ℚ × ℚ))
    (h : isclose value (1/1000) = true ∨ isclose value (colMax components * 2) = true) :
    closest_values value components = [(value, 0)] ∧
    expand_tolerance (value, 0) = [value] := by
  have hcond : (isclose value (1 / 1000) || isclose value (colMax components * 2)) = true := by
    rcases h with h | h
    · rw [h, Bool.true_or]
    · rw [h, Bool.or_true]
  refine ⟨?_, by simp [expand_tolerance]⟩
  unfold closest_values
  rw [if_pos hcond]

/-- C6 witness at the lower optimization bound. -/
theorem C6_boundary_sentinel_witness :
    closest_values (1/1000) [(1, 1/10)] = [(1/1000, 0)] ∧
    expand_tolerance (1/1000, 0) = [1/1000] :=
  C6_boundary_sentinel (1/1000) [(1, 1/10)] (Or.inl (by with_unfolding_all decide))

/-- C9. Context construction fails (and then only with the invalid-port-count
error) if and only if the device network is not one-port; on success the
stored device network is the original, unchanged. -/
theorem C9_invalid_port_count (rf : RF) (ntwk : Network) (frequency : Option ℕ)
    (max_points : Option ℕ) :
    ((∃ e, mkOptimizerArgs rf ntwk frequency max_points = .error e) ↔ ntwk.ports ≠ 1) ∧
    (∀ e, mkOptimizerArgs rf ntwk frequency max_points = .error e → e = .invalidPortCount) ∧
    (∀ a, mkOptimizerArgs rf ntwk frequency max_points = .ok a →
      a.ntwk = ntwk ∧ a.frequency = frequency) := by
  unfold mkOptimizerArgs
  by_cases h : ntwk.ports = 1
  · have h2 : ¬ ntwk.ports ≠ 1 := by simp [h]
    rw [if_neg h2]
    cases frequency with
    | none =>
      refine ⟨⟨?_, ?_⟩, ?_, ?_⟩
      · rintro ⟨e, he⟩
        simp at he
      · intro hp
        exact absurd h hp
      · intro e he
        simp at he
      · intro a ha
        injection ha with hba
        subst hba
        exact ⟨rfl, rfl⟩
    | some fsel =>
      refine ⟨⟨?_, ?_⟩, ?_, ?_⟩
      · rintro ⟨e, he⟩
        simp at he
      · intro hp
        exact absurd h hp
      · intro e he
        simp at he
      · intro a ha
        injection ha with hba
        subst hba
        exact ⟨rfl, rfl⟩
  · rw [if_pos h]
    refine ⟨⟨fun _ => h, fun _ => ⟨.invalidPortCount, rfl⟩⟩, ?_, ?_⟩
    · intro e he
      cases e
      rfl
    · intro a ha
      cases ha

/-- C9 witness: a two-port fixture is rejected, a one-port fixture is
accepted with the original network stored unchanged. -/
theorem C9_invalid_port_count_witness :
    (∃ e, mkOptimizerArgs rfZero twoPortFix none none = .error e) ∧
    (∀ a, mkOptimizerArgs rfZero antFix none none = .ok a →
      a.ntwk = antFix ∧ a.frequency = none) :=
  ⟨(C9_invalid_port_count rfZero twoPortFix none none).1.mpr (by with_unfolding_all decide),
   (C9_invalid_port_count rfZero antFix none none).2.2⟩

/-- The resampling grid has exactly the requested number of points. -/
theorem linspace_length (start stop : ℚ) (n : ℕ) : (linspace start stop n).length = n := by
  rw [linspace, List.length_map, List.length_range]

/-- C10. Without a band selector, the maximum-point cap is ignored entirely
and the working network is the device network itself; with a selector, the
band slice is resampled onto a grid of exactly `max_points` points precisely
when it has more points than the cap, and is used as-is otherwise. -/
theorem C10_cap_requires_band (rf : RF) (ntwk : Network) (hports : ntwk.ports = 1) :
    (∀ max_points, mkOptimizerArgs rf ntwk none max_points = .ok ⟨ntwk, ntwk, none⟩) ∧
    (∀ fsel mp, mp < (rf.bandSlice ntwk fsel).length →
      mkOptimizerArgs rf ntwk (some fsel) (some mp) =
        .ok ⟨ntwk, restrict rf ntwk
          (linspace ((rf.bandSlice ntwk fsel).headD 0)
            ((rf.bandSlice ntwk fsel).getLastD 0) mp), some fsel⟩ ∧
      (restrict rf ntwk
          (linspace ((rf.bandSlice ntwk fsel).headD 0)
            ((rf.bandSlice ntwk fsel).getLastD 0) mp)).freq.length = mp) ∧
    (∀ fsel mp, ¬ mp < (rf.bandSlice ntwk fsel).length →
      mkOptimizerArgs rf ntwk (some fsel) (some mp) =
        .ok ⟨ntwk, restrict rf ntwk (rf.bandSlice ntwk fsel), some fsel⟩) ∧
    (∀ fsel, mkOptimizerArgs rf ntwk (some fsel) none =
        .ok ⟨ntwk, restrict rf ntwk (rf.bandSlice ntwk fsel), some fsel⟩) := by
  have h2 : ¬ ntwk.ports ≠ 1 := by simp [hports]
  refine ⟨?_, ?_, ?_, ?_⟩
  · intro max_points
    unfold mkOptimizerArgs
    rw [if_neg h2]
  · intro fsel mp hlt
    unfold mkOptimizerArgs
    rw [if_neg h2]
    refine ⟨by simp [hlt], ?_⟩
    simpa [restrict] using linspace_length _ _ mp
  · intro fsel mp hge
    unfold mkOptimizerArgs
    rw [if_neg h2]
    simp [hge]
  · intro fsel
    unfold mkOptimizerArgs
    rw [if_neg h2]

/-- C1. The spec requires global tag deduplication, but `itertools.groupby`
without a preceding sort merges only consecutive equal tags: two distinct
`Lseries` continuous minima that both snap to the two rows of `indPairFix`
produce the task tag sequence 0.9nH, 1.1nH, 0.9nH, 1.1nH, and the tag
`(Lseries, (0.9, NaN))` therefore appears twice in the returned list instead
of being collapsed into one group. -/
theorem C1_duplicate_tag_not_merged :
    ((evaluate_components rfZero argsFix [minLs1, minLs2] indPairFix capOneFix).map
        (fun r => (r.arch, r.x))).count (Arch.Lseries, (some (9/10), none)) = 2 := by
  with_unfolding_all decide

/-- C3 counterexample. `optimize` passes both parameter slots to the solver
for every topology: the `Lshunt` result of a solver run keeps a numeric
capacitance (here the unmoved start value 16) in both its parameter vector
and the stored network parameters — not the "not applicable" sentinel. -/
theorem C3_solver_receives_both_slots :
    ((optimize rfZero solverStart fsqrtId indQuadFix capQuadFix argsFix).head?.map
        (fun r => (r.arch, r.x, r.ntwk.pvals))) =
      some (Arch.Lshunt, ((4 : ℚ), (16 : ℚ)), (some (4 : ℚ), some (16 : ℚ))) ∧
    (some (16 : ℚ) : Val) ≠ none := by
  constructor
  · with_unfolding_all decide
  · simp

/-- C3 as amended. `optimize` hands both slots to the solver and its results
carry a numeric value in the inapplicable slot, but `component_combinations`
restores the invariant: for single-element topologies every emitted item
keeps the inapplicable slot at the sentinel in both the tag and the concrete
values, so the unused axis is never snapped or varied by tolerance. -/
theorem C3_sentinel_in_combinations (arch : Arch) (x : ℚ × ℚ)
    (inductors capacitors : List (ℚ × ℚ)) (tv : Tag × (Val × Val))
    (hmem : tv ∈ component_combinations arch x inductors capacitors) :
    tv.1.1 = arch ∧
    ((arch = .Lshunt ∨ arch = .Lseries) → tv.1.2.2 = none ∧ tv.2.2 = none) ∧
    ((arch = .Cshunt ∨ arch = .Cseries) → tv.1.2.1 = none ∧ tv.2.1 = none) := by
  cases arch <;>
  · first
    | rw [component_combinations_Lshunt] at hmem
    | rw [component_combinations_Lseries] at hmem
    | rw [component_combinations_Cshunt] at hmem
    | rw [component_combinations_Cseries] at hmem
    | rw [component_combinations_LshuntCseries] at hmem
    | rw [component_combinations_CshuntLseries] at hmem
    | rw [component_combinations_LseriesCshunt] at hmem
    | rw [component_combinations_CseriesLshunt] at hmem
    simp only [List.mem_flatMap, List.mem_map] at hmem
    obtain ⟨a, ha, b, hb, rfl⟩ := hmem
    exact ⟨rfl, by simp, by simp⟩

/-- C3 witness on a concrete emitted item. -/
theorem C3_sentinel_in_combinations_witness :
    tvFix.1.1 = Arch.Lseries ∧
    ((Arch.Lseries = .Lshunt ∨ Arch.Lseries = .Lseries) →
      tvFix.1.2.2 = none ∧ tvFix.2.2 = none) ∧
    ((Arch.Lseries = .Cshunt ∨ Arch.Lseries = .Cseries) →
      tvFix.1.2.1 = none ∧ tvFix.2.1 = none) :=
  C3_sentinel_in_combinations .Lseries (19/20, 1) indPairFix capOneFix tvFix
    (by with_unfolding_all decide)

/-- Nested-loop form of the cross product of two lists. -/
theorem listProd_flatMap {α β γ : Type} (as : List α) (bs : List β) (f : α × β → List γ) :
    (listProd as bs).flatMap f = as.flatMap (fun a => bs.flatMap (fun b => f (a, b))) := by
  rw [listProd, List.flatMap_assoc]
  simp only [List.flatMap_map]

/-- Nested-loop form of a map over the cross product of two lists. -/
theorem listProd_map {α β γ : Type} (as : List α) (bs : List β) (g : α × β → γ) :
    (listProd as bs).map g = as.flatMap (fun a => bs.map (fun b => g (a, b))) := by
  rw [listProd, List.map_flatMap]
  simp only [List.map_map]
  rfl

/-- The spec's quadruple nested loop, rewritten over `listProd` pairs. -/
theorem spec_cross_product_eq (arch : Arch) (x : ℚ × ℚ) (ind cap : List (ℚ × ℚ)) :
    spec_cross_product arch x ind cap =
      (listProd (closest_values x.1 ind) (closest_values x.2 cap)).flatMap (fun lc =>
        (listProd (expand_tolerance lc.1) (expand_tolerance lc.2)).map (fun v =>
          ((arch, (some lc.1.1, some lc.2.1)), (some v.1, some v.2)))) := by
  rw [listProd_flatMap]
  simp only [listProd_map]
  rfl

/-- C7. For every two-element topology, `component_combinations` is exactly
the spec's quadruple cross product — one item per (inductor row, capacitor
row, inductor corner, capacitor corner), inductor rows varying slowest, then
capacitor rows, then inductor corners, then capacitor corners — and on one
inductor row and one capacitor row of tolerance 0.1 on nominal 1.0 it yields
exactly the nine tolerance-corner items, all tagged `(topology, (1.0, 1.0))`. -/
theorem C7_two_element_cross_product (arch : Arch) (x : ℚ × ℚ)
    (inductors capacitors : List (ℚ × ℚ))
    (harch : arch = .LshuntCseries ∨ arch = .CshuntLseries ∨
             arch = .LseriesCshunt ∨ arch = .CseriesLshunt) :
    component_combinations arch x inductors capacitors =
      spec_cross_product arch x inductors capacitors ∧
    component_combinations arch (6/5, 11/10) [(1, 1/10)] [(1, 1/10)] =
      [((arch, (some 1, some 1)), (some 1, some 1)),
       ((arch, (some 1, some 1)), (some 1, some (9/10))),
       ((arch, (some 1, some 1)), (some 1, some (11/10))),
       ((arch, (some 1, some 1)), (some (9/10), some 1)),
       ((arch, (some 1, some 1)), (some (9/10), some (9/10))),
       ((arch, (some 1, some 1)), (some (9/10), some (11/10))),
       ((arch, (some 1, some 1)), (some (11/10), some 1)),
       ((arch, (some 1, some 1)), (some (11/10), some (9/10))),
       ((arch, (some 1, some 1)), (some (11/10), some (11/10)))] := by
  rcases harch with rfl | rfl | rfl | rfl
  · exact ⟨by rw [component_combinations_LshuntCseries, spec_cross_product_eq],
           by with_unfolding_all decide⟩
  · exact ⟨by rw [component_combinations_CshuntLseries, spec_cross_product_eq],
           by with_unfolding_all decide⟩
  · exact ⟨by rw [component_combinations_LseriesCshunt, spec_cross_product_eq],
           by with_unfolding_all decide⟩
  · exact ⟨by rw [component_combinations_CseriesLshunt, spec_cross_product_eq],
           by with_unfolding_all decide⟩

/-- C7 witness at the `LshuntCseries` topology. -/
theorem C7_two_element_cross_product_witness :
    component_combinations .LshuntCseries (6/5, 11/10) [(1, 1/10)] [(1, 1/10)] =
      spec_cross_product .LshuntCseries (6/5, 11/10) [(1, 1/10)] [(1, 1/10)] ∧
    component_combinations .LshuntCseries (6/5, 11/10) [(1, 1/10)] [(1, 1/10)] =
      [((.LshuntCseries, (some 1, some 1)), (some 1, some 1)),
       ((.LshuntCseries, (some 1, some 1)), (some 1, some (9/10))),
       ((.LshuntCseries, (some 1, some 1)), (some 1, some (11/10))),
       ((.LshuntCseries, (some 1, some 1)), (some (9/10), some 1)),
       ((.LshuntCseries, (some 1, some 1)), (some (9/10), some (9/10))),
       ((.LshuntCseries, (some 1, some 1)), (some (9/10), some (11/10))),
       ((.LshuntCseries, (some 1, some 1)), (some (11/10), some 1)),
       ((.LshuntCseries, (some 1, some 1)), (some (11/10), some (9/10))),
       ((.LshuntCseries, (some 1, some 1)), (some (11/10), some (11/10)))] :=
  C7_two_element_cross_product .LshuntCseries (6/5, 11/10) [(1, 1/10)] [(1, 1/10)]
    (Or.inl rfl)



/-- The inclusive take is a sublist of the scanned list. -/
theorem takeUntilIncl_sublist {α : Type} (p : α → Bool) :
    ∀ l : List α, (takeUntilIncl p l).Sublist l := by
  intro l
  induction l with
  | nil => exact List.Sublist.refl _
  | cons a as ih =>
    rw [takeUntilIncl]
    by_cases h : p a
    · rw [if_pos h]
      exact (List.nil_sublist as).cons₂ a
    · rw [if_neg h]
      exact ih.cons₂ a

/-- When no element triggers the stop predicate, the scan returns the whole
list. -/
theorem takeUntilIncl_eq_self {α : Type} (p : α → Bool) :
    ∀ l : List α, (∀ a ∈ l, p a = false) → takeUntilIncl p l = l := by
  intro l
  induction l with
  | nil => intro _; rfl
  | cons a as ih =>
    intro hall
    rw [takeUntilIncl, if_neg (by simp [hall a (List.mem_cons_self a as)])]
    rw [ih (fun b hb => hall b (List.mem_cons_of_mem a hb))]

/-- Every element of the scan except possibly the last fails the stop
predicate. -/
theorem takeUntilIncl_dropLast {α : Type} (p : α → Bool) :
    ∀ l : List α, ∀ a ∈ (takeUntilIncl p l).dropLast, p a = false := by
  intro l
  induction l with
  | nil => intro a ha; cases ha
  | cons b as ih =>
    intro a ha
    rw [takeUntilIncl] at ha
    by_cases h : p b
    · rw [if_pos h] at ha
      cases ha
    · rw [if_neg h] at ha
      rcases hne : takeUntilIncl p as with _ | ⟨c, cs⟩
      · rw [hne] at ha
        cases ha
      · rw [hne, List.dropLast_cons₂] at ha
        rcases List.mem_cons.mp ha with rfl | ha2
        · exact eq_false_of_ne_true h
        · exact ih a (hne ▸ ha2)

/-- If some element of the list satisfies the stop predicate, the scan
contains one that does. -/
theorem takeUntilIncl_exists {α : Type} (p : α → Bool) :
    ∀ l : List α, (∃ a ∈ l, p a = true) → ∃ b ∈ takeUntilIncl p l, p b = true := by
  intro l
  induction l with
  | nil => rintro ⟨a, ha, _⟩; cases ha
  | cons b as ih =>
    rintro ⟨a, ha, hpa⟩
    rw [takeUntilIncl]
    by_cases h : p b
    · exact ⟨b, by rw [if_pos h]; exact List.mem_singleton_self b, h⟩
    · rcases List.mem_cons.mp ha with rfl | ha2
      · exact absurd hpa (by simp [h])
      · obtain ⟨c, hc, hpc⟩ := ih ⟨a, ha2, hpa⟩
        exact ⟨c, by rw [if_neg h]; exact List.mem_cons_of_mem b hc, hpc⟩

/-- C4 as amended. Outside the boundary-sentinel rule, when the closest row's
absolute relative deviation exceeds 0.1%, `closest_values` returns the
closest row first, then rows in nondecreasing absolute relative deviation,
all drawn from the catalog; every returned row except possibly the last
deviates on the same side as the closest row, and the scan either includes a
row of the opposite sign or exhausts the whole catalog; a row deviating on
the opposite side is included — so the result brackets the target — whenever
the catalog contains one, but a one-sided catalog is returned whole without
bracketing. `b0` is the head of the deviation-sorted row list. -/
theorem C4_closest_values_scan (value : ℚ) (components : List (ℚ × ℚ)) (b0 : (ℚ × ℚ) × ℚ)
    (hb1 : isclose value (1 / 1000) = false)
    (hb2 : isclose value (colMax components * 2) = false)
    (hhead : ((relList value components).insertionSort byAbsRel).head? = some b0)
    (hdev : 1 / 1000 < |b0.2|) :
    (closest_values value components).head? = some b0.1 ∧
    (∀ c ∈ components, |b0.1.1 / value - 1| ≤ |c.1 / value - 1|) ∧
    (closest_values value components).Pairwise
      (fun a c => |a.1 / value - 1| ≤ |c.1 / value - 1|) ∧
    List.Subperm (closest_values value components) components ∧
    (∀ a ∈ (closest_values value components).dropLast,
      npsign (a.1 / value - 1) = npsign (b0.1.1 / value - 1)) ∧
    ((∃ a ∈ closest_values value components,
        npsign (a.1 / value - 1) ≠ npsign (b0.1.1 / value - 1)) ∨
      (closest_values value components).length = components.length) ∧
    ((∃ c ∈ components, npsign (c.1 / value - 1) ≠ npsign (b0.1.1 / value - 1)) →
      ∃ a ∈ closest_values value components,
        npsign (a.1 / value - 1) ≠ npsign (b0.1.1 / value - 1)) ∧
    npsign (b0.1.1 / value - 1) ≠ 0 := by
  -- abbreviations
  set srt := (relList value components).insertionSort byAbsRel with hsrt
  -- decompose the sorted list
  obtain ⟨rest, hs⟩ : ∃ rest, srt = b0 :: rest := by
    cases hc : srt with
    | nil => rw [hc] at hhead; cases hhead
    | cons x xs =>
      rw [hc] at hhead
      injection hhead with hx
      exact ⟨xs, by rw [hx]⟩
  -- the stored deviation of every sorted pair is the recomputed deviation
  have hrel : ∀ pr ∈ srt, pr.2 = pr.1.1 / value - 1 := by
    intro pr hpr
    have hmem : pr ∈ relList value components :=
      (List.perm_insertionSort byAbsRel (relList value components)).subset hpr
    rw [relList] at hmem
    obtain ⟨c, _, rfl⟩ := List.mem_map.mp hmem
    rfl
  have hb0mem : b0 ∈ srt := by rw [hs]; exact List.mem_cons_self b0 rest
  have hb0rel : b0.2 = b0.1.1 / value - 1 := hrel b0 hb0mem
  -- every catalog row appears among the sorted pairs
  have hto : ∀ c ∈ components, (c, c.1 / value - 1) ∈ srt := by
    intro c hc
    exact (List.perm_insertionSort byAbsRel (relList value components)).mem_iff.mpr
      (by rw [relList]; exact List.mem_map.mpr ⟨c, hc, rfl⟩)
  -- sortedness of the sorted pairs
  have hsorted : List.Sorted byAbsRel srt := List.sorted_insertionSort byAbsRel _
  have hsorted2 := hs ▸ hsorted
  have hb0le : ∀ pr ∈ rest, |b0.2| ≤ |pr.2| := by
    intro pr hpr
    exact List.rel_of_sorted_cons hsorted2 pr hpr
  -- the output shape
  set p : ((ℚ × ℚ) × ℚ) → Bool := fun c => decide (npsign c.2 ≠ npsign b0.2) with hp
  have hcv : closest_values value components =
      b0.1 :: (takeUntilIncl p rest).map Prod.fst := by
    rw [closest_values, if_neg (by rw [hb1, hb2]; simp), ← hsrt, hs, closest_scan,
      if_pos hdev]
  have hsubl : (b0 :: takeUntilIncl p rest).Sublist srt := by
    rw [hs]
    exact (takeUntilIncl_sublist p rest).cons₂ b0
  have htU : ∀ pr ∈ takeUntilIncl p rest, pr ∈ srt := by
    intro pr hpr
    rw [hs]
    exact List.mem_cons_of_mem b0 ((takeUntilIncl_sublist p rest).subset hpr)
  -- head of output
  refine ⟨by rw [hcv]; rfl, ?_, ?_, ?_, ?_, ?_, ?_, ?_⟩
  -- closest row first
  · intro c hc
    have hm := hto c hc
    rw [hs] at hm
    rcases List.mem_cons.mp hm with heq | hm2
    · rw [← hb0rel, ← heq]
    · have := hb0le _ hm2
      rw [hb0rel] at this
      exact this
  -- nondecreasing absolute deviation
  · rw [hcv, ← List.map_cons]
    rw [List.pairwise_map]
    have hpw : (b0 :: takeUntilIncl p rest).Pairwise byAbsRel :=
      hsorted.sublist hsubl
    refine hpw.imp_of_mem ?_
    intro x y hx hy hxy
    rw [byAbsRel] at hxy
    rwa [hrel x (hsubl.subset hx), hrel y (hsubl.subset hy)] at hxy
  -- a subpermutation of the catalog
  · rw [hcv, ← List.map_cons]
    have h1 : ((b0 :: takeUntilIncl p rest).map Prod.fst).Sublist (srt.map Prod.fst) :=
      hsubl.map Prod.fst
    have h2 : (srt.map Prod.fst).Perm components := by
      refine ((List.perm_insertionSort byAbsRel (relList value components)).map _).trans ?_
      rw [relList, List.map_map]
      exact (List.map_id components).symm ▸ List.Perm.refl _
    exact h1.subperm.trans h2.subperm
  -- all but the last share the closest row's sign
  · intro a ha
    rw [hcv] at ha
    rcases hne : (takeUntilIncl p rest).map Prod.fst with _ | ⟨c, cs⟩
    · rw [hne] at ha
      cases ha
    · rw [hne, List.dropLast_cons₂, ← hne] at ha
      rcases List.mem_cons.mp ha with rfl | ha2
      · rfl
      · rw [← List.map_dropLast] at ha2
        obtain ⟨pr, hpr, rfl⟩ := List.mem_map.mp ha2
        have hfalse : p pr = false :=
          takeUntilIncl_dropLast p rest pr hpr
        have hprmem : pr ∈ takeUntilIncl p rest :=
          (List.dropLast_sublist _).subset hpr
        have : ¬ (npsign pr.2 ≠ npsign b0.2) := by
          simpa [hp] using hfalse
        rw [hrel pr (htU pr hprmem), hb0rel] at this
        exact not_not.mp this
  -- stop condition: an opposite-sign row was found, or the catalog is exhausted
  · by_cases hex : ∃ pr ∈ rest, p pr = true
    · left
      obtain ⟨b, hb, hpb⟩ := takeUntilIncl_exists p rest hex
      refine ⟨b.1, by rw [hcv]; exact List.mem_cons_of_mem _ (List.mem_map.mpr ⟨b, hb, rfl⟩), ?_⟩
      have : npsign b.2 ≠ npsign b0.2 := by simpa [hp] using hpb
      rwa [hrel b (htU b hb), hb0rel] at this
    · right
      have hall : ∀ pr ∈ rest, p pr = false := by
        intro pr hpr
        by_contra hne
        exact hex ⟨pr, hpr, by simpa using hne⟩
      rw [hcv, takeUntilIncl_eq_self p rest hall]
      have hlen : srt.length = components.length := by
        rw [(List.perm_insertionSort byAbsRel (relList value components)).length_eq,
          relList, List.length_map]
      rw [← hlen, hs]
      simp
  -- bracketing whenever the catalog holds an opposite-sign row
  · rintro ⟨c, hc, hcs⟩
    have hm := hto c hc
    rw [hs] at hm
    rcases List.mem_cons.mp hm with heq | hm2
    · exact absurd (by rw [← heq]) hcs
    · have hpc : p (c, c.1 / value - 1) = true := by
        rw [hp]
        simp only [decide_eq_true_eq]
        rw [hb0rel]
        exact hcs
      obtain ⟨b, hb, hpb⟩ := takeUntilIncl_exists p rest ⟨_, hm2, hpc⟩
      refine ⟨b.1, by rw [hcv]; exact List.mem_cons_of_mem _ (List.mem_map.mpr ⟨b, hb, rfl⟩), ?_⟩
      have : npsign b.2 ≠ npsign b0.2 := by simpa [hp] using hpb
      rwa [hrel b (htU b hb), hb0rel] at this
  -- the closest row's sign is strict
  · rw [← hb0rel, npsign]
    have : b0.2 ≠ 0 := by
      intro h0
      rw [h0] at hdev
      norm_num at hdev
    rcases lt_trichotomy 0 b0.2 with h | h | h
    · simp [h]
    · exact absurd h.symm this
    · simp [if_neg (lt_asymm h), h]

/-- C4 counterexample. For target 1 over the one-sided catalog
`[(2, 0.1), (3, 0.1)]` — not at a boundary, closest deviation 1 > 0.1% — the
whole catalog is returned and every returned row deviates on the positive
side: the result does not bracket the target from both sides. -/
theorem C4_one_sided_no_bracket :
    closest_values 1 [(2, 1/10), (3, 1/10)] = [(2, 1/10), (3, 1/10)] ∧
    isclose 1 (1/1000) = false ∧
    isclose 1 (colMax [((2:ℚ), (1:ℚ)/10), (3, 1/10)] * 2) = false ∧
    (1/1000 : ℚ) < |(2:ℚ)/1 - 1| ∧
    ∀ c ∈ closest_values 1 [(2, 1/10), (3, 1/10)], (0:ℤ) < npsign (c.1/1 - 1) := by
  with_unfolding_all decide

/-- C4 witness on the spec's worked example: the closest row 0.9 comes first
and an opposite-sign row is included. -/
theorem C4_closest_values_scan_witness :
    (closest_values 1 comps5).head? = some (9/10, 1/10) ∧
    ∃ a ∈ closest_values 1 comps5,
      npsign (a.1 / 1 - 1) ≠ npsign (((9:ℚ)/10) / 1 - 1) := by
  have h := C4_closest_values_scan 1 comps5 ((9/10, 1/10), -(1/10))
    (by with_unfolding_all decide) (by with_unfolding_all decide)
    (by with_unfolding_all decide) (by with_unfolding_all decide)
  exact ⟨h.1, h.2.2.2.2.2.2.1
    ⟨(3/2, 1/10), by with_unfolding_all decide, by with_unfolding_all decide⟩⟩

/-- C2 counterexample. The returned list is not sorted by the claim's score
(the maximum squared reflection magnitude over corners and frequency
points): a spiky response (per-point magnitudes 0.9, 0) ranks before a flat
one (0.7, 0.7) because the code sorts by the band-integrated sum
0.81 < 0.98, while the claim's maxima order the other way (0.81 > 0.49). -/
theorem C2_not_sorted_by_spec_max :
    ¬ ((evaluate_components rfSpike argsFix [minLshunt, minCshunt] capOneFix capOneFix).Pairwise
        (fun a b => spec_worst_case_max a.ntwk ≤ spec_worst_case_max b.ntwk)) := by
  with_unfolding_all decide

/-- C2 as amended. `evaluate_components` returns the groups sorted ascending
by the code's worst-case key — the sum over the band's frequency points of
the squared per-point maximum across the group's tolerance-corner responses
— with ties broken by first-seen order: any two groups already ordered by
key in the pre-sort group list stay in that relative order (stable sort). -/
theorem C2_sorted_by_worst_case_key (rf : RF) (args : OptimizerArgs)
    (minima : List OptimizeResult) (inductors capacitors : List (ℚ × ℚ)) :
    (evaluate_components rf args minima inductors capacitors).Pairwise
      (fun a b => worst_case_key a.ntwk ≤ worst_case_key b.ntwk) ∧
    (∀ a b : Tag × List Network,
      worst_case_key a.2 ≤ worst_case_key b.2 →
      List.Sublist [a, b] (tagged_groups rf args minima inductors capacitors) →
      List.Sublist
        [(⟨a.1.1, a.1.2, a.2⟩ : OptimizeResultToleranced), ⟨b.1.1, b.1.2, b.2⟩]
        (evaluate_components rf args minima inductors capacitors)) := by
  have hdef : evaluate_components rf args minima inductors capacitors =
      ((tagged_groups rf args minima inductors capacitors).insertionSort keyLe).map
        (fun g => (⟨g.1.1, g.1.2, g.2⟩ : OptimizeResultToleranced)) := rfl
  constructor
  · rw [hdef, List.pairwise_map]
    exact List.sorted_insertionSort keyLe _
  · intro a b hle hsub
    rw [hdef]
    exact List.Sublist.map (fun g => (⟨g.1.1, g.1.2, g.2⟩ : OptimizeResultToleranced))
      (@List.pair_sublist_insertionSort _ keyLe _ a b _ hle hsub)

/-- C2 witness on the two-group fixture: the output is key-sorted, and the
lower-keyed `Lshunt` group stays before the `Cshunt` group. -/
theorem C2_sorted_by_worst_case_key_witness :
    (evaluate_components rfSpike argsFix [minLshunt, minCshunt] capOneFix capOneFix).Pairwise
      (fun a b => worst_case_key a.ntwk ≤ worst_case_key b.ntwk) ∧
    List.Sublist
      [(⟨groupL.1.1, groupL.1.2, groupL.2⟩ : OptimizeResultToleranced),
       ⟨groupC.1.1, groupC.1.2, groupC.2⟩]
      (evaluate_components rfSpike argsFix [minLshunt, minCshunt] capOneFix capOneFix) := by
  have h : tagged_groups rfSpike argsFix [minLshunt, minCshunt] capOneFix capOneFix =
      [groupL, groupC] := by with_unfolding_all decide
  exact
    ⟨(C2_sorted_by_worst_case_key rfSpike argsFix [minLshunt, minCshunt] capOneFix capOneFix).1,
     (C2_sorted_by_worst_case_key rfSpike argsFix [minLshunt, minCshunt] capOneFix capOneFix).2
       groupL groupC (by with_unfolding_all decide) (h ▸ List.Sublist.refl _)⟩

/-- C8. `expand_result` rebuilds against the full, unmodified device network:
the rebuilt response carries `args.ntwk`'s frequency axis and keeps the
display name (a pure function of topology and stored parameters); for a
toleranced result exactly one network is rebuilt per tolerance corner, from
that corner's stored parameters, preserving the group's order. -/
theorem C8_expand_against_full_network (rf : RF) (args : OptimizerArgs) :
    (∀ r : OptimizeResult,
      expand_result rf args (.single r) =
        .single ⟨r.arch, r.x, matching_network rf r.arch (toVals r.x) args.ntwk⟩ ∧
      (matching_network rf r.arch (toVals r.x) args.ntwk).freq = args.ntwk.freq ∧
      (r.ntwk.name = mkLabel r.arch (toVals r.x) →
        (matching_network rf r.arch (toVals r.x) args.ntwk).name = r.ntwk.name)) ∧
    (∀ t : OptimizeResultToleranced,
      resultNets (expand_result rf args (.toleranced t)) =
        t.ntwk.map (fun n => matching_network rf t.arch n.pvals args.ntwk) ∧
      (resultNets (expand_result rf args (.toleranced t))).length = t.ntwk.length ∧
      (∀ n ∈ resultNets (expand_result rf args (.toleranced t)), n.freq = args.ntwk.freq) ∧
      (∀ n ∈ t.ntwk, n.name = mkLabel t.arch n.pvals →
        (matching_network rf t.arch n.pvals args.ntwk).name = n.name)) := by
  constructor
  · intro r
    refine ⟨rfl, rfl, ?_⟩
    intro hname
    rw [hname]
    rfl
  · intro t
    refine ⟨rfl, ?_, ?_, ?_⟩
    · simp [resultNets, expand_result]
    · intro n hn
      simp only [resultNets, expand_result, List.mem_map] at hn
      obtain ⟨m, hm, rfl⟩ := hn
      rfl
    · intro n hn hname
      rw [hname]
      rfl

/-- C8 witness on the two fixtures, with the name hypotheses discharged. -/
theorem C8_expand_against_full_network_witness :
    (matching_network rfZero contFix.arch (toVals contFix.x) argsFix.ntwk).name =
      contFix.ntwk.name ∧
    resultNets (expand_result rfZero argsFix (.toleranced tolFix)) =
      tolFix.ntwk.map (fun n => matching_network rfZero tolFix.arch n.pvals argsFix.ntwk) ∧
    (matching_network rfZero tolFix.arch
        (matching_network rfZero .Lshunt (some 1, none) antFix).pvals argsFix.ntwk).name =
      (matching_network rfZero .Lshunt (some 1, none) antFix).name :=
  ⟨((C8_expand_against_full_network rfZero argsFix).1 contFix).2.2
      (by with_unfolding_all decide),
   ((C8_expand_against_full_network rfZero argsFix).2 tolFix).1,
   ((C8_expand_against_full_network rfZero argsFix).2 tolFix).2.2.2
      (matching_network rfZero .Lshunt (some 1, none) antFix)
      (by with_unfolding_all decide) (by with_unfolding_all decide)⟩

/-- C10 witness on a three-point band slice capped to two points. -/
theorem C10_cap_requires_band_witness :
    (mkOptimizerArgs rfZero antFix none (some 1) = .ok ⟨antFix, antFix, none⟩) ∧
    (mkOptimizerArgs rfZero antFix (some 0) (some 1) =
      .ok ⟨antFix, restrict rfZero antFix
        (linspace ((rfZero.bandSlice antFix 0).headD 0)
          ((rfZero.bandSlice antFix 0).getLastD 0) 1), some 0⟩) :=
  ⟨(C10_cap_requires_band rfZero antFix (by with_unfolding_all decide)).1 (some 1),
   ((C10_cap_requires_band rfZero antFix (by with_unfolding_all decide)).2.1 0 1
      (by with_unfolding_all decide)).1⟩

end AntennaMatch
